import Mathlib

/-!
Verification of the sophy / sophi numerical library (Newton-Raphson root
finder, special functions gamma, zeta, eta, erf, sigma, exponential series).

The Rust code computes with `f64`; the shallow embedding below works in an
arbitrary linear ordered field (rationals in concrete evaluations), so
floating-point rounding is abstracted away while every branch, guard and
loop of the source is kept.  Rust panics are modelled as `Except.error`
values.  The transcendental primitives of `f64` (`powf`, `exp`, `sqrt`,
`ln`) and the constants `PI` / `ln 2` are taken as parameters of the
embedded functions, exactly where the source calls them.
-/

set_option maxHeartbeats 1000000

namespace Sophy

/-- Panics of the Rust code, modelled as error values: `domainError` stands
for the domain-guard panics of gamma / zeta / eta / sigma, and
`derivativeTooSmall` for the panic of the Newton-Raphson iteration. -/
inductive MathError where
  | domainError : MathError
  | derivativeTooSmall : MathError
  deriving DecidableEq

variable {α : Type*} [LinearOrderedField α]

/-- One Newton step `x - f x / df x`, the update of
src/sophy-lib/src/methods/raphson.rs line 117. -/
def nstep (f df : α → α) (x : α) : α := x - f x / df x

/-- The iterates of the Newton step starting from `x0`. -/
def newtonIter (f df : α → α) (x0 : α) (i : ℕ) : α := (nstep f df)^[i] x0

/-- Shallow embedding of `raphson` from src/sophy-lib/src/methods/raphson.rs
(the copy in src/sophi-lib/src/methods/raphson.rs is identical): the
`for _ in 0..max_iter` loop becomes recursion on the remaining iteration
count, and the `panic!("Derivative too small")` becomes an error value. -/
def raphson (x : α) (f df : α → α) (tol : α) : ℕ → Except MathError α
  | 0 => .ok x
  | m + 1 =>
    let y := f x
    let y' := df x
    if |y'| < tol then .error .derivativeTooSmall
    else
      let x_new := x - y / y'
      if |x_new - x| < tol then .ok x_new
      else raphson x_new f df tol m

/-- The literal `1e-15`, the tolerance of the zeta and eta series and of
their checkpoint comparisons. -/
def tol15 : α := 1 / 10 ^ 15

/-- The series loop of `zeta` from src/sophy-lib/src/specials/zeta.rs:
`n` and `sum` are the loop state; `fuel` is the number of additions still
allowed by the `n > 1_000_000` cap (the cap test runs after the increment,
so the loop performs at most `fuel` additions and then stops without
re-testing the tolerance, exactly as in the source). -/
def zetaGo (pf : α → α → α) (s : α) (n : ℕ) (sum : α) : ℕ → α
  | 0 => sum
  | fuel + 1 =>
    let term := 1 / pf (n : α) s
    if term < tol15 then sum
    else zetaGo pf s (n + 1) (sum + term) fuel

/-- Shallow embedding of `zeta` from src/sophy-lib/src/specials/zeta.rs.
`pf a b` models `a.powf(b)` and `pi` the constant `PI`; the panic on
`s <= 1.0` becomes a `domainError`. -/
def zeta (pf : α → α → α) (pi s : α) : Except MathError α :=
  if s ≤ 1 then .error .domainError
  else if |s - 2| < tol15 then .ok (pi * pi / 6)
  else if |s - 4| < tol15 then .ok (pi ^ 4 / 90)
  else .ok (zetaGo pf s 1 0 1000000)

/-- The alternating-series loop of `eta` from
src/sophy-lib/src/specials/eta.rs: `for n in 1..=1000000` with an early
`break` becomes recursion with `fuel` remaining loop indices; `sign` is
multiplied by `-1` after each added term, as in the source. -/
def etaGo (pf : α → α → α) (s : α) (n : ℕ) (sign sum : α) : ℕ → α
  | 0 => sum
  | fuel + 1 =>
    let term := sign / pf (n : α) s
    if |term| < tol15 then sum
    else etaGo pf s (n + 1) (sign * (-1)) (sum + term) fuel

/-- Shallow embedding of `eta` from src/sophy-lib/src/specials/eta.rs,
delegating to `zeta` for `s > 1.0` through the identity
`(1 - 2^(1-s)) * zeta s`; `ln2` models `2.0_f64.ln()`. -/
def eta (pf : α → α → α) (pi ln2 s : α) : Except MathError α :=
  if s ≤ 0 then .error .domainError
  else if |s - 1| < tol15 then .ok ln2
  else if 1 < s then (zeta pf pi s).map (fun z => (1 - pf 2 (1 - s)) * z)
  else .ok (etaGo pf s 1 1 0 1000000)

/-- Shallow embedding of `sigma` from src/sophy-lib/src/specials/sigma.rs.
The divisor scan `for i in 1..=sqrt_n` becomes a sum over
`Finset.Icc 1 (Nat.sqrt n)`; the bound `(n as f64).sqrt() as u64` is
modelled by the exact integer square root, and the panic on `n == 0`
becomes a `domainError`. -/
def sigma (n : ℕ) : Except MathError ℕ :=
  if n = 0 then .error .domainError
  else if n = 1 then .ok 1
  else .ok ((Finset.Icc 1 (Nat.sqrt n)).sum fun i =>
    if n % i = 0 then (if i ≠ n / i then i + n / i else i) else 0)

/-- Shallow embedding of `is_perfect` from
src/sophy-lib/src/specials/sigma.rs: false for `n <= 1`, otherwise the
comparison `sigma(n) == 2 * n` (a panic of `sigma` would propagate, hence
the `Except.map`). -/
def is_perfect (n : ℕ) : Except MathError Bool :=
  if n ≤ 1 then .ok false
  else (sigma n).map (fun s => decide (s = 2 * n))

/-- Modelled from the spec: src/sophi-lib/src/functions/exp.rs imports the
constant `epsilon` from `crate::base::numbers`, a module whose file is not
among the sources; per the spec it is machine epsilon for double
precision, `2^-52`. -/
def epsilon : ℚ := 1 / 2 ^ 52

/-- The `while term > epsilon` loop of `exp` from
src/sophi-lib/src/functions/exp.rs; the state is `(result, term, n)` and
`fuel` bounds the iterations of the source's unbounded while loop, `none`
meaning the loop was cut off before its guard failed.  Note the guard
compares the signed `term`, not its absolute value. -/
def expGo (x eps : α) : ℕ → α → α → ℕ → Option (α × α × ℕ)
  | 0, _, _, _ => none
  | fuel + 1, result, term, n =>
    if eps < term then
      let term2 := term * (x / (n : α))
      expGo x eps fuel (result + term2) term2 (n + 1)
    else some (result, term, n)

/-- `exp x`: run the loop from `result = 1.0`, `term = 1.0`, `n = 1` and
return the accumulated result. -/
def exp (x eps : α) (fuel : ℕ) : Option α :=
  (expGo x eps fuel 1 1 1).map (fun st => st.1)

/-- Term `x ^ k / k!` of the Taylor series of the exponential. -/
def taylorTerm (x : α) (k : ℕ) : α := x ^ k / (k.factorial : α)

/-- Partial sum of the Taylor series of the exponential through `x ^ m / m!`. -/
def taylorSum (x : α) (m : ℕ) : α := ∑ k in Finset.range (m + 1), taylorTerm x k

/-- Abramowitz-Stegun coefficient `A1 = 0.254829592` of `erf`. -/
def A1 : α := 254829592 / 10 ^ 9

/-- Abramowitz-Stegun coefficient `A2 = -0.284496736` of `erf`. -/
def A2 : α := -284496736 / 10 ^ 9

/-- Abramowitz-Stegun coefficient `A3 = 1.421413741` of `erf`. -/
def A3 : α := 1421413741 / 10 ^ 9

/-- Abramowitz-Stegun coefficient `A4 = -1.453152027` of `erf`. -/
def A4 : α := -1453152027 / 10 ^ 9

/-- Abramowitz-Stegun coefficient `A5 = 1.061405429` of `erf`. -/
def A5 : α := 1061405429 / 10 ^ 9

/-- Abramowitz-Stegun constant `P = 0.3275911` of `erf`. -/
def P : α := 3275911 / 10 ^ 7

/-- Shallow embedding of `erf` from src/sophy-lib/src/specials/erf.rs.
`ef` models `f64::exp`, used by the source only at `-x * x`; the negative
branch recurses once through the odd-function identity, exactly as the
source does. -/
def erf (ef : α → α) (x : α) : α :=
  if x = 0 then 0
  else if x < 0 then -erf ef (-x)
  else if 5 < x then 1
  else
    let t := 1 / (1 + P * x)
    let poly := A1 * t + A2 * t * t + A3 * t * t * t + A4 * t ^ 4 + A5 * t ^ 5
    1 - poly * ef (-(x * x))
termination_by (if x < 0 then 1 else 0 : ℕ)
decreasing_by
  have hnn : ¬(-x < 0) := not_lt.2 (neg_nonneg.2 (le_of_lt (by assumption)))
  simp [hnn, if_pos (by assumption : x < 0)]

/-- The Lanczos branch of `gamma` for `1 <= x < 2`: `g = 7` and the fixed
9-term coefficient table of src/sophy-lib/src/specials/gamma.rs, with the
accumulation loop `a += c[i] / (z + i)` unrolled.  `pf`, `ef`, `sqf` model
`powf`, `exp`, `sqrt`; `pi` models `PI`. -/
def lanczos (pf : α → α → α) (ef sqf : α → α) (pi x : α) : α :=
  let z := x - 1
  let a : α :=
    9999999999998099 / 10 ^ 16
    + 6765203681218851 / 10 ^ 13 / (z + 1)
    + -12591392167224028 / 10 ^ 13 / (z + 2)
    + 7713234287776531 / 10 ^ 13 / (z + 3)
    + -1766150291621406 / 10 ^ 13 / (z + 4)
    + 12507343278686905 / 10 ^ 15 / (z + 5)
    + -13857109526572012 / 10 ^ 17 / (z + 6)
    + 9984369578019572 / 10 ^ 21 / (z + 7)
    + 15056327351493116 / 10 ^ 23 / (z + 8)
  let t := z + 7 + 1 / 2
  sqf (2 * pi) * pf t (z + 1 / 2) * ef (-t) * a

/-- Shallow embedding of `gamma` from src/sophy-lib/src/specials/gamma.rs:
the panic on `x <= 0` becomes a `domainError`, `0 < x < 1` recurses through
`gamma (x + 1) / x`, `x >= 2` through `(x - 1) * gamma (x - 1)`, and
`1 <= x < 2` evaluates the Lanczos core. -/
def gamma [FloorRing α] (pf : α → α → α) (ef sqf : α → α) (pi x : α) :
    Except MathError α :=
  if x ≤ 0 then .error .domainError
  else if x < 1 then (gamma pf ef sqf pi (x + 1)).map (fun g => g / x)
  else if 2 ≤ x then (gamma pf ef sqf pi (x - 1)).map (fun g => (x - 1) * g)
  else .ok (lanczos pf ef sqf pi x)
termination_by ⌊x⌋.toNat + (if x < 1 then 2 else 0)
decreasing_by
  · rename_i h0 h1
    have hx : 0 < x := lt_of_not_le h0
    have hfx : ⌊x⌋ = 0 := by
      rw [Int.floor_eq_zero_iff]
      exact ⟨le_of_lt hx, h1⟩
    have hfx1 : ⌊x + 1⌋ = 1 := by
      rw [Int.floor_add_one, hfx]
      omega
    have hx1 : ¬(x + 1 < 1) := by linarith
    simp [hfx, hfx1, hx1, if_pos h1]
  · rename_i h0 h1 h2
    have hfl : (2 : ℤ) ≤ ⌊x⌋ := by
      rw [Int.le_floor]; exact_mod_cast h2
    have hfx1 : ⌊x - 1⌋ = ⌊x⌋ - 1 := by
      rw [Int.floor_sub_one]
    have hx1 : ¬(x - 1 < 1) := by
      have : (2 : α) ≤ x := h2
      intro h; linarith
    have h1' : ¬(x < 1) := h1
    rw [if_neg hx1, if_neg h1', hfx1]
    omega

end Sophy

namespace Sophy

variable {α : Type*} [LinearOrderedField α]

lemma newtonIter_zero (f df : α → α) (x0 : α) : newtonIter f df x0 0 = x0 := rfl

lemma newtonIter_one (f df : α → α) (x0 : α) :
    newtonIter f df x0 1 = nstep f df x0 := by
  simp [newtonIter]

lemma newtonIter_shift (f df : α → α) (x0 : α) (i : ℕ) :
    newtonIter f df (nstep f df x0) i = newtonIter f df x0 (i + 1) :=
  (Function.iterate_succ_apply (nstep f df) i x0).symm

lemma raphson_succ_guard (f df : α → α) (tol x0 : α) (m : ℕ)
    (hg : |df x0| < tol) :
    raphson x0 f df tol (m + 1) = .error .derivativeTooSmall := by
  simp only [raphson]
  rw [if_pos hg]

lemma raphson_succ_converge (f df : α → α) (tol x0 : α) (m : ℕ)
    (hg : ¬(|df x0| < tol)) (hc : |nstep f df x0 - x0| < tol) :
    raphson x0 f df tol (m + 1) = .ok (nstep f df x0) := by
  simp only [raphson]
  rw [if_neg hg, if_pos (by simpa [nstep] using hc)]
  rfl

lemma raphson_succ_step (f df : α → α) (tol x0 : α) (m : ℕ)
    (hg : ¬(|df x0| < tol)) (hc : ¬(|nstep f df x0 - x0| < tol)) :
    raphson x0 f df tol (m + 1) = raphson (nstep f df x0) f df tol m := by
  simp only [raphson]
  rw [if_neg hg, if_neg (by simpa [nstep] using hc)]
  rfl

lemma raphson_exhaust (f df : α → α) (tol : α) (m : ℕ) :
    ∀ x0 : α, (∀ i, i < m → tol ≤ |df (newtonIter f df x0 i)|) →
      (∀ k, k < m → tol ≤ |newtonIter f df x0 (k + 1) - newtonIter f df x0 k|) →
      raphson x0 f df tol m = .ok (newtonIter f df x0 m) := by
  induction m with
  | zero => intro x0 _ _; rfl
  | succ m ih =>
    intro x0 hg hc
    have hg0 : ¬(|df x0| < tol) :=
      not_lt.2 (by simpa [newtonIter] using hg 0 (Nat.succ_pos m))
    have hc0 : ¬(|nstep f df x0 - x0| < tol) :=
      not_lt.2 (by simpa [newtonIter_one, newtonIter_zero] using hc 0 (Nat.succ_pos m))
    rw [raphson_succ_step f df tol x0 m hg0 hc0]
    have hrec := ih (nstep f df x0)
      (fun i hi => by
        rw [newtonIter_shift]
        exact hg (i + 1) (by omega))
      (fun k hk => by
        rw [newtonIter_shift, newtonIter_shift]
        exact hc (k + 1) (by omega))
    rw [hrec, newtonIter_shift]

lemma raphson_converge (f df : α → α) (tol : α) (m : ℕ) :
    ∀ (x0 : α) (k : ℕ), k < m →
      (∀ i, i ≤ k → tol ≤ |df (newtonIter f df x0 i)|) →
      (∀ i, i < k → tol ≤ |newtonIter f df x0 (i + 1) - newtonIter f df x0 i|) →
      |newtonIter f df x0 (k + 1) - newtonIter f df x0 k| < tol →
      raphson x0 f df tol m = .ok (newtonIter f df x0 (k + 1)) := by
  induction m with
  | zero => intro x0 k hk; omega
  | succ m ih =>
    intro x0 k hk hg hb hcv
    have hg0 : ¬(|df x0| < tol) :=
      not_lt.2 (by simpa [newtonIter] using hg 0 (Nat.zero_le k))
    cases k with
    | zero =>
      have hcv0 : |nstep f df x0 - x0| < tol := by
        simpa [newtonIter_one, newtonIter_zero] using hcv
      rw [raphson_succ_converge f df tol x0 m hg0 hcv0, newtonIter_one]
    | succ j =>
      have hb0 : ¬(|nstep f df x0 - x0| < tol) :=
        not_lt.2 (by simpa [newtonIter_one, newtonIter_zero] using hb 0 (Nat.succ_pos j))
      rw [raphson_succ_step f df tol x0 m hg0 hb0]
      have hrec := ih (nstep f df x0) j (by omega)
        (fun i hi => by
          rw [newtonIter_shift]
          exact hg (i + 1) (by omega))
        (fun i hi => by
          rw [newtonIter_shift, newtonIter_shift]
          exact hb (i + 1) (by omega))
        (by rw [newtonIter_shift, newtonIter_shift]; exact hcv)
      rw [hrec, newtonIter_shift]

/-- C1: for pure `f`, `df`, whenever the derivative guard does not fire on
the iterations actually performed (that failure mode is claim C2), the
root finder returns the first Newton iterate whose step is smaller than
`tol`, returns the last computed iterate without error when all `max_iter`
iterations pass without convergence, and returns `x0` unchanged when
`max_iter = 0`.  Each conjunct assumes the guard only on the iterations
that run there: all `max_iter` of them in the exhaustion case, and
iterations `0..k` when convergence happens on iteration `k` (later
mathematical iterates are never computed and are unconstrained). -/
theorem raphson_convergence_spec (f df : α → α) (tol x0 : α) (m : ℕ) :
    raphson x0 f df tol 0 = .ok x0 ∧
    ((∀ i, i < m → tol ≤ |df (newtonIter f df x0 i)|) →
      (∀ k, k < m → tol ≤ |newtonIter f df x0 (k + 1) - newtonIter f df x0 k|) →
      raphson x0 f df tol m = .ok (newtonIter f df x0 m)) ∧
    ∀ k, k < m →
      (∀ i, i ≤ k → tol ≤ |df (newtonIter f df x0 i)|) →
      (∀ i, i < k → tol ≤ |newtonIter f df x0 (i + 1) - newtonIter f df x0 i|) →
      |newtonIter f df x0 (k + 1) - newtonIter f df x0 k| < tol →
      raphson x0 f df tol m = .ok (newtonIter f df x0 (k + 1)) :=
  ⟨rfl, fun hguard hc => raphson_exhaust f df tol m x0 hguard hc,
    fun k hk hguard hb hcv => raphson_converge f df tol m x0 k hk hguard hb hcv⟩

/-- Witness for C1: solving x - 1 = 0 from x0 = 1 with tol = 1/2 converges
on the first iteration to the first Newton iterate. -/
theorem raphson_convergence_spec_witness :
    raphson (1 : ℚ) (fun x => x - 1) (fun _ => 1) (1 / 2) 1 =
      .ok (newtonIter (fun x => x - 1) (fun _ => 1) (1 : ℚ) 1) := by
  refine (raphson_convergence_spec (fun x => x - 1) (fun _ => 1) (1 / 2)
    (1 : ℚ) 1).2.2 0 (by omega) ?_ (fun i hi => absurd hi (by omega)) ?_
  · intro i _
    norm_num
  · rw [newtonIter_one, newtonIter_zero]
    norm_num [nstep]

/-- C2: the root finder fails, with the derivative-too-small error, exactly
when some actually-performed iteration `k` hits `|df x_k| < tol` while
every earlier iteration passed the guard and did not converge; the guard
is tested on every iteration performed, before the update step. -/
theorem raphson_error_spec (f df : α → α) (tol x0 : α) (m : ℕ) :
    raphson x0 f df tol m = .error .derivativeTooSmall ↔
      ∃ k, k < m ∧ |df (newtonIter f df x0 k)| < tol ∧
        ∀ i, i < k → tol ≤ |df (newtonIter f df x0 i)| ∧
          tol ≤ |newtonIter f df x0 (i + 1) - newtonIter f df x0 i| := by
  induction m generalizing x0 with
  | zero =>
    exact iff_of_false (by simp [raphson]) (by rintro ⟨k, hk, -⟩; omega)
  | succ m ih =>
    by_cases hg0 : |df x0| < tol
    · rw [raphson_succ_guard f df tol x0 m hg0]
      exact iff_of_true rfl
        ⟨0, Nat.succ_pos m, by simpa [newtonIter_zero] using hg0,
          fun i hi => absurd hi (by omega)⟩
    · by_cases hcv : |nstep f df x0 - x0| < tol
      · rw [raphson_succ_converge f df tol x0 m hg0 hcv]
        refine iff_of_false (by simp) ?_
        rintro ⟨k, hk, htrip, hprev⟩
        cases k with
        | zero => exact hg0 (by simpa [newtonIter_zero] using htrip)
        | succ j =>
          have h := (hprev 0 (Nat.succ_pos j)).2
          rw [newtonIter_one, newtonIter_zero] at h
          exact absurd hcv (not_lt.2 h)
      · rw [raphson_succ_step f df tol x0 m hg0 hcv, ih]
        constructor
        · rintro ⟨k, hk, htrip, hprev⟩
          refine ⟨k + 1, by omega, by rwa [newtonIter_shift] at htrip, ?_⟩
          intro i hi
          cases i with
          | zero =>
            refine ⟨not_lt.1 hg0, ?_⟩
            rw [newtonIter_one, newtonIter_zero]
            exact not_lt.1 hcv
          | succ i =>
            have h := hprev i (by omega)
            simp only [newtonIter_shift] at h
            exact h
        · rintro ⟨k, hk, htrip, hprev⟩
          cases k with
          | zero => exact absurd (by simpa [newtonIter_zero] using htrip) hg0
          | succ j =>
            refine ⟨j, by omega, by rwa [newtonIter_shift], ?_⟩
            intro i hi
            have h := hprev (i + 1) (by omega)
            simp only [newtonIter_shift]
            exact h

end Sophy

namespace Sophy

variable {α : Type*} [LinearOrderedField α]

lemma zetaGo_run (pf : α → α → α) (s : α) (F : ℕ) :
    ∀ (j : ℕ) (sum : α),
      (∀ k, j ≤ k → k < j + F → ¬(1 / pf (k : α) s < tol15)) →
      zetaGo pf s j sum F = sum + ∑ k in Finset.Ico j (j + F), 1 / pf (k : α) s := by
  induction F with
  | zero => intro j sum _; simp [zetaGo]
  | succ F ih =>
    intro j sum h
    have hj : ¬(1 / pf (j : α) s < tol15) := h j le_rfl (by omega)
    rw [show zetaGo pf s j sum (F + 1)
        = zetaGo pf s (j + 1) (sum + 1 / pf (j : α) s) F from by
      simp only [zetaGo]; rw [if_neg hj]]
    rw [ih (j + 1) _ (fun k hk1 hk2 => h k (by omega) (by omega))]
    rw [Finset.sum_eq_sum_Ico_succ_bot (show j < j + (F + 1) by omega)]
    rw [show j + 1 + F = j + (F + 1) from by omega]
    ring

lemma zetaGo_run_stop (pf : α → α → α) (s : α) (F : ℕ) :
    ∀ (j : ℕ) (sum : α) (K : ℕ), j ≤ K → K < j + F →
      (∀ k, j ≤ k → k < K → ¬(1 / pf (k : α) s < tol15)) →
      1 / pf (K : α) s < tol15 →
      zetaGo pf s j sum F = sum + ∑ k in Finset.Ico j K, 1 / pf (k : α) s := by
  induction F with
  | zero => intro j sum K h1 h2; omega
  | succ F ih =>
    intro j sum K hjK hKF hbef hstop
    rcases eq_or_lt_of_le hjK with rfl | hlt
    · rw [show zetaGo pf s j sum (F + 1) = sum from by
        simp only [zetaGo]; rw [if_pos hstop]]
      simp
    · have hj : ¬(1 / pf (j : α) s < tol15) := hbef j le_rfl hlt
      rw [show zetaGo pf s j sum (F + 1)
          = zetaGo pf s (j + 1) (sum + 1 / pf (j : α) s) F from by
        simp only [zetaGo]; rw [if_neg hj]]
      rw [ih (j + 1) _ K (by omega) (by omega)
        (fun k hk1 hk2 => hbef k (by omega) hk2) hstop]
      rw [Finset.sum_eq_sum_Ico_succ_bot hlt]
      ring

/-- C6: for s > 1, zeta returns exactly pi^2/6 within 1e-15 of 2, exactly
pi^4/90 within 1e-15 of 4 (the s = 2 checkpoint being tested first), and
otherwise the partial series sum of 1/n^s: through n = 1,000,000 when no
term drops below 1e-15 within the cap, and through K - 1 when n = K is the
first index whose term drops below 1e-15. -/
theorem zeta_series_spec (pf : α → α → α) (pi s : α) (hs : 1 < s) :
    (|s - 2| < tol15 → zeta pf pi s = .ok (pi * pi / 6)) ∧
    (¬(|s - 2| < tol15) → |s - 4| < tol15 → zeta pf pi s = .ok (pi ^ 4 / 90)) ∧
    (¬(|s - 2| < tol15) → ¬(|s - 4| < tol15) →
      ((∀ k : ℕ, 1 ≤ k → k ≤ 1000000 → ¬(1 / pf (k : α) s < tol15)) →
        zeta pf pi s = .ok (∑ k in Finset.Icc (1 : ℕ) 1000000, 1 / pf (k : α) s)) ∧
      ∀ K : ℕ, 1 ≤ K → K ≤ 1000000 →
        (∀ k : ℕ, 1 ≤ k → k < K → ¬(1 / pf (k : α) s < tol15)) →
        1 / pf (K : α) s < tol15 →
        zeta pf pi s = .ok (∑ k in Finset.Ico (1 : ℕ) K, 1 / pf (k : α) s)) := by
  have hns : ¬(s ≤ 1) := not_le.2 hs
  refine ⟨?_, ?_, ?_⟩
  · intro h2
    simp only [zeta]
    rw [if_neg hns, if_pos h2]
  · intro h2 h4
    simp only [zeta]
    rw [if_neg hns, if_neg h2, if_pos h4]
  · intro h2 h4
    have hz : zeta pf pi s = .ok (zetaGo pf s 1 0 1000000) := by
      simp only [zeta]
      rw [if_neg hns, if_neg h2, if_neg h4]
    constructor
    · intro hall
      rw [hz, zetaGo_run pf s 1000000 1 0
        (fun k hk1 hk2 => hall k hk1 (by omega)), zero_add]
      rw [show (1 + 1000000 : ℕ) = 1000000 + 1 from by omega, Nat.Ico_succ_right]
    · intro K hK1 hK2 hbef hstop
      rw [hz, zetaGo_run_stop pf s 1000000 1 0 K hK1 (by omega) hbef hstop, zero_add]

/-- Witness for C6: at s = 2 the Basel checkpoint fires. -/
theorem zeta_series_spec_witness :
    zeta (fun _ _ => (0 : ℚ)) 3 2 = .ok (3 * 3 / 6) :=
  (zeta_series_spec (fun _ _ => (0 : ℚ)) 3 2 (by norm_num)).1
    (by norm_num [tol15])

end Sophy

namespace Sophy

variable {α : Type*} [LinearOrderedField α]

lemma etaTerm_shift (pf : α → α → α) (s g : α) (j k : ℕ) (hk : j + 1 ≤ k) :
    g * (-1) * (-1 : α) ^ (k - (j + 1)) / pf (k : α) s
      = g * (-1 : α) ^ (k - j) / pf (k : α) s := by
  rw [show k - j = (k - (j + 1)) + 1 from by omega, pow_succ]
  ring

lemma etaGo_run (pf : α → α → α) (s : α) (F : ℕ) :
    ∀ (j : ℕ) (g sum : α),
      (∀ k : ℕ, j ≤ k → k < j + F →
        ¬(|g * (-1 : α) ^ (k - j) / pf (k : α) s| < tol15)) →
      etaGo pf s j g sum F
        = sum + ∑ k in Finset.Ico j (j + F), g * (-1 : α) ^ (k - j) / pf (k : α) s := by
  induction F with
  | zero => intro j g sum _; simp [etaGo]
  | succ F ih =>
    intro j g sum h
    have hterm0 : g * (-1 : α) ^ (j - j) / pf (j : α) s = g / pf (j : α) s := by
      simp
    have hj : ¬(|g / pf (j : α) s| < tol15) := by
      have := h j le_rfl (by omega)
      rwa [hterm0] at this
    rw [show etaGo pf s j g sum (F + 1)
        = etaGo pf s (j + 1) (g * (-1)) (sum + g / pf (j : α) s) F from by
      simp only [etaGo]; rw [if_neg hj]]
    rw [ih (j + 1) (g * (-1)) _ (fun k hk1 hk2 => by
      rw [etaTerm_shift pf s g j k hk1]
      exact h k (by omega) (by omega))]
    rw [Finset.sum_congr rfl
      (fun k hk => etaTerm_shift pf s g j k (Finset.mem_Ico.1 hk).1)]
    rw [Finset.sum_eq_sum_Ico_succ_bot (show j < j + (F + 1) by omega)]
    rw [hterm0, show j + 1 + F = j + (F + 1) from by omega]
    ring

lemma etaGo_run_stop (pf : α → α → α) (s : α) (F : ℕ) :
    ∀ (j : ℕ) (g sum : α) (K : ℕ), j ≤ K → K < j + F →
      (∀ k : ℕ, j ≤ k → k < K →
        ¬(|g * (-1 : α) ^ (k - j) / pf (k : α) s| < tol15)) →
      |g * (-1 : α) ^ (K - j) / pf (K : α) s| < tol15 →
      etaGo pf s j g sum F
        = sum + ∑ k in Finset.Ico j K, g * (-1 : α) ^ (k - j) / pf (k : α) s := by
  induction F with
  | zero => intro j g sum K h1 h2; omega
  | succ F ih =>
    intro j g sum K hjK hKF hbef hstop
    rcases eq_or_lt_of_le hjK with rfl | hlt
    · rw [show etaGo pf s j g sum (F + 1) = sum from by
        simp only [etaGo]
        rw [if_pos (by simpa using hstop)]]
      simp
    · have hterm0 : g * (-1 : α) ^ (j - j) / pf (j : α) s = g / pf (j : α) s := by
        simp
      have hj : ¬(|g / pf (j : α) s| < tol15) := by
        have := hbef j le_rfl hlt
        rwa [hterm0] at this
      rw [show etaGo pf s j g sum (F + 1)
          = etaGo pf s (j + 1) (g * (-1)) (sum + g / pf (j : α) s) F from by
        simp only [etaGo]; rw [if_neg hj]]
      rw [ih (j + 1) (g * (-1)) _ K (by omega) (by omega)
        (fun k hk1 hk2 => by
          rw [etaTerm_shift pf s g j k hk1]
          exact hbef k (by omega) hk2)
        (by rw [etaTerm_shift pf s g j K hlt]; exact hstop)]
      rw [Finset.sum_congr rfl
        (fun k hk => etaTerm_shift pf s g j k (Finset.mem_Ico.1 hk).1)]
      rw [Finset.sum_eq_sum_Ico_succ_bot hlt, hterm0]
      ring

/-- C7: for s > 0, eta returns exactly ln 2 within 1e-15 of 1 (that
checkpoint is tested before the s > 1 identity), exactly
(1 - 2^(1-s)) * zeta(s) by delegation to zeta for s > 1 away from the
checkpoint, and otherwise the partial alternating sum of (-1)^(n-1)/n^s
over n = 1..1,000,000, stopping early at the first term with absolute
value below 1e-15. -/
theorem eta_series_spec (pf : α → α → α) (pi ln2 s : α) (hs : 0 < s) :
    (|s - 1| < tol15 → eta pf pi ln2 s = .ok ln2) ∧
    (¬(|s - 1| < tol15) → 1 < s →
      eta pf pi ln2 s = (zeta pf pi s).map (fun z => (1 - pf 2 (1 - s)) * z) ∧
      ∃ z, zeta pf pi s = .ok z ∧
        eta pf pi ln2 s = .ok ((1 - pf 2 (1 - s)) * z)) ∧
    (¬(|s - 1| < tol15) → s ≤ 1 →
      ((∀ k : ℕ, 1 ≤ k → k ≤ 1000000 →
          ¬(|(-1 : α) ^ (k - 1) / pf (k : α) s| < tol15)) →
        eta pf pi ln2 s
          = .ok (∑ k in Finset.Icc (1 : ℕ) 1000000, (-1 : α) ^ (k - 1) / pf (k : α) s)) ∧
      ∀ K : ℕ, 1 ≤ K → K ≤ 1000000 →
        (∀ k : ℕ, 1 ≤ k → k < K →
          ¬(|(-1 : α) ^ (k - 1) / pf (k : α) s| < tol15)) →
        |(-1 : α) ^ (K - 1) / pf (K : α) s| < tol15 →
        eta pf pi ln2 s
          = .ok (∑ k in Finset.Ico (1 : ℕ) K, (-1 : α) ^ (k - 1) / pf (k : α) s)) := by
  have hns : ¬(s ≤ 0) := not_le.2 hs
  refine ⟨?_, ?_, ?_⟩
  · intro h1
    simp only [eta]
    rw [if_neg hns, if_pos h1]
  · intro h1 hgt
    have he : eta pf pi ln2 s = (zeta pf pi s).map (fun z => (1 - pf 2 (1 - s)) * z) := by
      simp only [eta]
      rw [if_neg hns, if_neg h1, if_pos hgt]
    refine ⟨he, ?_⟩
    have hzok : ∃ z, zeta pf pi s = .ok z := by
      simp only [zeta]
      rw [if_neg (not_le.2 hgt)]
      split_ifs <;> exact ⟨_, rfl⟩
    obtain ⟨z, hz⟩ := hzok
    exact ⟨z, hz, by rw [he, hz]; rfl⟩
  · intro h1 hle
    have hgt : ¬(1 < s) := not_lt.2 hle
    have he : eta pf pi ln2 s = .ok (etaGo pf s 1 1 0 1000000) := by
      simp only [eta]
      rw [if_neg hns, if_neg h1, if_neg hgt]
    have hone : ∀ k : ℕ, (1 : α) * (-1 : α) ^ (k - 1) / pf (k : α) s
        = (-1 : α) ^ (k - 1) / pf (k : α) s := by
      intro k; rw [one_mul]
    constructor
    · intro hall
      rw [he, etaGo_run pf s 1000000 1 1 0 (fun k hk1 hk2 => by
        rw [hone k]
        exact hall k hk1 (by omega)), zero_add]
      rw [Finset.sum_congr rfl (fun k _ => hone k)]
      rw [show (1 + 1000000 : ℕ) = 1000000 + 1 from by omega, Nat.Ico_succ_right]
    · intro K hK1 hK2 hbef hstop
      rw [he, etaGo_run_stop pf s 1000000 1 1 0 K hK1 (by omega)
        (fun k hk1 hk2 => by rw [hone k]; exact hbef k hk1 hk2)
        (by rw [hone K]; exact hstop), zero_add]
      rw [Finset.sum_congr rfl (fun k _ => hone k)]

/-- Witness for C7: at s = 1 the ln 2 checkpoint fires. -/
theorem eta_series_spec_witness :
    eta (fun _ _ => (0 : ℚ)) 3 7 1 = .ok 7 :=
  (eta_series_spec (fun _ _ => (0 : ℚ)) 3 7 1 (by norm_num)).1
    (by norm_num [tol15])

end Sophy

namespace Sophy

variable {α : Type*} [LinearOrderedField α]

lemma gamma_of_nonpos [FloorRing α] (pf : α → α → α) (ef sqf : α → α)
    (pi : α) {x : α} (hx : x ≤ 0) :
    gamma pf ef sqf pi x = .error .domainError := by
  rw [gamma]
  rw [if_pos hx]

lemma gamma_of_lt_one [FloorRing α] (pf : α → α → α) (ef sqf : α → α)
    (pi : α) {x : α} (h0 : ¬(x ≤ 0)) (h1 : x < 1) :
    gamma pf ef sqf pi x = (gamma pf ef sqf pi (x + 1)).map (fun g => g / x) := by
  rw [gamma]
  rw [if_neg h0, if_pos h1]

lemma gamma_of_ge_two [FloorRing α] (pf : α → α → α) (ef sqf : α → α)
    (pi : α) {x : α} (h0 : ¬(x ≤ 0)) (h1 : ¬(x < 1)) (h2 : 2 ≤ x) :
    gamma pf ef sqf pi x
      = (gamma pf ef sqf pi (x - 1)).map (fun g => (x - 1) * g) := by
  rw [gamma]
  rw [if_neg h0, if_neg h1, if_pos h2]

lemma gamma_of_lanczos [FloorRing α] (pf : α → α → α) (ef sqf : α → α)
    (pi : α) {x : α} (h0 : ¬(x ≤ 0)) (h1 : ¬(x < 1)) (h2 : ¬(2 ≤ x)) :
    gamma pf ef sqf pi x = .ok (lanczos pf ef sqf pi x) := by
  rw [gamma]
  rw [if_neg h0, if_neg h1, if_neg h2]

lemma gamma_ok [FloorRing α] (pf : α → α → α) (ef sqf : α → α) (pi : α) :
    ∀ (N : ℕ) (x : α), ⌊x⌋.toNat + (if x < 1 then 2 else 0) ≤ N → 0 < x →
      ∃ v, gamma pf ef sqf pi x = .ok v := by
  intro N
  induction N with
  | zero =>
    intro x hm hx
    exfalso
    by_cases h1 : x < 1
    · simp [h1] at hm
    · have h1' : (1 : ℤ) ≤ ⌊x⌋ := Int.le_floor.2 (by exact_mod_cast not_lt.1 h1)
      simp only [h1', if_neg h1] at hm
      omega
  | succ N ih =>
    intro x hm hx
    have hnle : ¬(x ≤ 0) := not_le.2 hx
    by_cases h1 : x < 1
    · have hfx : ⌊x⌋ = 0 := Int.floor_eq_zero_iff.2 ⟨le_of_lt hx, h1⟩
      have hfx1 : ⌊x + 1⌋ = 1 := by
        rw [Int.floor_add_one, hfx]
        omega
      have hx1a : ¬(x + 1 < 1) := by linarith
      have hmx1 : ⌊x + 1⌋.toNat + (if x + 1 < 1 then 2 else 0) ≤ N := by
        rw [hfx1, if_neg hx1a]
        rw [hfx, if_pos h1] at hm
        omega
      obtain ⟨v, hv⟩ := ih (x + 1) hmx1 (by linarith)
      exact ⟨v / x, by rw [gamma_of_lt_one pf ef sqf pi hnle h1, hv]; rfl⟩
    · by_cases h2 : (2 : α) ≤ x
      · have hfl : (2 : ℤ) ≤ ⌊x⌋ := Int.le_floor.2 (by exact_mod_cast h2)
        have hfx1 : ⌊x - 1⌋ = ⌊x⌋ - 1 := Int.floor_sub_one x
        have hx1a : ¬(x - 1 < 1) := by
          intro h
          have h2' : (2 : α) ≤ x := h2
          linarith
        have hmx1 : ⌊x - 1⌋.toNat + (if x - 1 < 1 then 2 else 0) ≤ N := by
          rw [hfx1, if_neg hx1a]
          rw [if_neg h1] at hm
          omega
        obtain ⟨v, hv⟩ := ih (x - 1) hmx1 (by
          have h2' : (2 : α) ≤ x := h2
          linarith)
        exact ⟨(x - 1) * v,
          by rw [gamma_of_ge_two pf ef sqf pi hnle h1 h2, hv]; rfl⟩
      · exact ⟨lanczos pf ef sqf pi x, gamma_of_lanczos pf ef sqf pi hnle h1 h2⟩

lemma zeta_ok (pf : α → α → α) (pi : α) {s : α} (hs : 1 < s) :
    ∃ v, zeta pf pi s = .ok v := by
  simp only [zeta]
  rw [if_neg (not_le.2 hs)]
  split_ifs <;> exact ⟨_, rfl⟩

lemma eta_ok (pf : α → α → α) (pi ln2 : α) {s : α} (hs : 0 < s) :
    ∃ v, eta pf pi ln2 s = .ok v := by
  simp only [eta]
  rw [if_neg (not_le.2 hs)]
  by_cases h1 : |s - 1| < tol15
  · rw [if_pos h1]; exact ⟨ln2, rfl⟩
  · rw [if_neg h1]
    by_cases h2 : 1 < s
    · rw [if_pos h2]
      obtain ⟨v, hv⟩ := zeta_ok pf pi h2
      exact ⟨(1 - pf 2 (1 - s)) * v, by rw [hv]; rfl⟩
    · rw [if_neg h2]; exact ⟨_, rfl⟩

/-- C3: each domain guard fires exactly on the out-of-domain arguments and
every in-domain argument yields a value: gamma succeeds iff x > 0, zeta
succeeds iff s > 1 (so eta's delegation to zeta at s > 1 cannot hit zeta's
guard), eta succeeds iff s > 0, and sigma succeeds iff n is nonzero; on
the out-of-domain side the error is always the domain error. -/
theorem domain_guard_spec [FloorRing α] (pf : α → α → α) (ef sqf : α → α)
    (pi ln2 : α) (x s t : α) (n : ℕ) :
    ((∃ v, gamma pf ef sqf pi x = .ok v) ↔ 0 < x) ∧
    (x ≤ 0 → gamma pf ef sqf pi x = .error .domainError) ∧
    ((∃ v, zeta pf pi s = .ok v) ↔ 1 < s) ∧
    (s ≤ 1 → zeta pf pi s = .error .domainError) ∧
    ((∃ v, eta pf pi ln2 t = .ok v) ↔ 0 < t) ∧
    (t ≤ 0 → eta pf pi ln2 t = .error .domainError) ∧
    ((∃ v, sigma n = .ok v) ↔ n ≠ 0) ∧
    sigma 0 = .error .domainError := by
  refine ⟨⟨?_, ?_⟩, ?_, ⟨?_, ?_⟩, ?_, ⟨?_, ?_⟩, ?_, ⟨?_, ?_⟩, ?_⟩
  · rintro ⟨v, hv⟩
    by_contra hx
    rw [gamma_of_nonpos pf ef sqf pi (not_lt.1 hx)] at hv
    exact absurd hv (by simp)
  · intro hx
    exact gamma_ok pf ef sqf pi _ x le_rfl hx
  · intro hx
    exact gamma_of_nonpos pf ef sqf pi hx
  · rintro ⟨v, hv⟩
    by_contra hs
    rw [show zeta pf pi s = .error .domainError from by
      simp only [zeta]; rw [if_pos (not_lt.1 hs)]] at hv
    exact absurd hv (by simp)
  · intro hs
    exact zeta_ok pf pi hs
  · intro hs
    simp only [zeta]
    rw [if_pos hs]
  · rintro ⟨v, hv⟩
    by_contra ht
    rw [show eta pf pi ln2 t = .error .domainError from by
      simp only [eta]; rw [if_pos (not_lt.1 ht)]] at hv
    exact absurd hv (by simp)
  · intro ht
    exact eta_ok pf pi ln2 ht
  · intro ht
    simp only [eta]
    rw [if_pos ht]
  · rintro ⟨v, hv⟩
    intro hn
    rw [hn] at hv
    simp [sigma] at hv
  · intro hn
    simp only [sigma]
    rw [if_neg hn]
    split_ifs <;> exact ⟨_, rfl⟩
  · simp [sigma]

/-- Witness for C3: gamma succeeds at x = 3 and zeta rejects s = 1. -/
theorem domain_guard_spec_witness :
    (∃ v, gamma (fun _ _ => (0 : ℚ)) id id 0 3 = .ok v) ∧
      zeta (fun _ _ => (0 : ℚ)) 0 1 = .error .domainError :=
  ⟨(domain_guard_spec (fun _ _ => (0 : ℚ)) id id 0 0 3 1 1 6).1.mpr (by norm_num),
    (domain_guard_spec (fun _ _ => (0 : ℚ)) id id 0 0 3 1 1 6).2.2.2.1 (by norm_num)⟩

end Sophy

namespace Sophy

lemma div_mem_small_divisors {n d : ℕ} (hn0 : n ≠ 0) (hd : d ∣ n)
    (hlarge : ¬(d ≤ Nat.sqrt n)) :
    n / d ∣ n ∧ n / d ≤ Nat.sqrt n := by
  have hd0 : d ≠ 0 := by
    rintro rfl
    exact hn0 (Nat.eq_zero_of_zero_dvd hd)
  have hmul : d * (n / d) = n := Nat.mul_div_cancel' hd
  constructor
  · exact ⟨d, (Nat.div_mul_cancel hd).symm⟩
  · by_contra hgt
    have h1 : Nat.sqrt n + 1 ≤ d := by omega
    have h2 : Nat.sqrt n + 1 ≤ n / d := by omega
    have : (Nat.sqrt n + 1) * (Nat.sqrt n + 1) ≤ n := by
      calc (Nat.sqrt n + 1) * (Nat.sqrt n + 1) ≤ d * (n / d) :=
            Nat.mul_le_mul h1 h2
        _ = n := hmul
    have hlt := Nat.lt_succ_sqrt n
    simp only [Nat.succ_eq_add_one] at hlt
    omega

lemma small_divisor_pair_large {n i : ℕ} (hn0 : n ≠ 0) (hi : i ∣ n)
    (hsmall : i ≤ Nat.sqrt n) (hne : i ≠ n / i) :
    n / i ∣ n ∧ ¬(n / i ≤ Nat.sqrt n) := by
  have hi0 : i ≠ 0 := by
    rintro rfl
    exact hn0 (Nat.eq_zero_of_zero_dvd hi)
  have hmul : i * (n / i) = n := Nat.mul_div_cancel' hi
  have hq0 : n / i ≠ 0 := by
    rintro h
    rw [h, Nat.mul_zero] at hmul
    exact hn0 hmul.symm
  refine ⟨⟨i, (Nat.div_mul_cancel hi).symm⟩, ?_⟩
  intro hle
  rcases Nat.lt_or_ge i (n / i) with hlt | hge
  · have h1 : i * (n / i) < (n / i) * (n / i) :=
      mul_lt_mul_of_pos_right hlt (Nat.pos_of_ne_zero hq0)
    have h2 : (n / i) * (n / i) ≤ Nat.sqrt n * Nat.sqrt n := Nat.mul_le_mul hle hle
    have h3 := Nat.sqrt_le n
    omega
  · have hgt : n / i < i := by omega
    have h1 : i * (n / i) < i * i :=
      mul_lt_mul_of_pos_left hgt (Nat.pos_of_ne_zero hi0)
    have h2 : i * i ≤ Nat.sqrt n * Nat.sqrt n := Nat.mul_le_mul hsmall hsmall
    have h3 := Nat.sqrt_le n
    omega

lemma sigma_scan_eq_sum_divisors (n : ℕ) (hn : 2 ≤ n) :
    ((Finset.Icc 1 (Nat.sqrt n)).sum fun i =>
      if n % i = 0 then (if i ≠ n / i then i + n / i else i) else 0)
    = ∑ d in n.divisors, d := by
  have hn0 : n ≠ 0 := by omega
  have hfilter : (Finset.Icc 1 (Nat.sqrt n)).filter (fun i => n % i = 0)
      = n.divisors.filter (fun i => i ≤ Nat.sqrt n) := by
    ext i
    simp only [Finset.mem_filter, Finset.mem_Icc, Nat.mem_divisors]
    constructor
    · rintro ⟨⟨h1, h2⟩, h3⟩
      exact ⟨⟨Nat.dvd_of_mod_eq_zero h3, hn0⟩, h2⟩
    · rintro ⟨⟨hdvd, -⟩, hle⟩
      have hpos : 1 ≤ i := by
        rcases Nat.eq_zero_or_pos i with rfl | h
        · exact absurd (Nat.eq_zero_of_zero_dvd hdvd) hn0
        · exact h
      exact ⟨⟨hpos, hle⟩, Nat.mod_eq_zero_of_dvd hdvd⟩
  rw [← Finset.sum_filter, hfilter]
  have hsummand : ∀ i, (if i ≠ n / i then i + n / i else i)
      = i + (if i ≠ n / i then n / i else 0) := by
    intro i
    split_ifs <;> simp
  rw [Finset.sum_congr rfl (fun i _ => hsummand i), Finset.sum_add_distrib,
    ← Finset.sum_filter]
  have hlarge : ∑ i in (n.divisors.filter (fun i => i ≤ Nat.sqrt n)).filter
        (fun i => i ≠ n / i), n / i
      = ∑ d in n.divisors.filter (fun d => ¬(d ≤ Nat.sqrt n)), d := by
    refine Finset.sum_nbij' (fun i => n / i) (fun d => n / d) ?_ ?_ ?_ ?_ ?_
    · intro a ha
      simp only [Finset.mem_filter, Nat.mem_divisors] at ha ⊢
      obtain ⟨⟨⟨hdvd, -⟩, hle⟩, hne⟩ := ha
      obtain ⟨hd1, hd2⟩ := small_divisor_pair_large hn0 hdvd hle hne
      exact ⟨⟨hd1, hn0⟩, hd2⟩
    · intro d hd
      simp only [Finset.mem_filter, Nat.mem_divisors] at hd ⊢
      obtain ⟨⟨hdvd, -⟩, hlarge⟩ := hd
      obtain ⟨hd1, hd2⟩ := div_mem_small_divisors hn0 hdvd hlarge
      have hself : n / (n / d) = d := Nat.div_div_self hdvd hn0
      refine ⟨⟨⟨hd1, hn0⟩, hd2⟩, ?_⟩
      rw [hself]
      intro h
      rw [h] at hd2
      exact hlarge hd2
    · intro a ha
      simp only [Finset.mem_filter, Nat.mem_divisors] at ha
      exact Nat.div_div_self ha.1.1.1 hn0
    · intro d hd
      simp only [Finset.mem_filter, Nat.mem_divisors] at hd
      exact Nat.div_div_self hd.1.1 hn0
    · intro a _
      rfl
  rw [hlarge, Finset.sum_filter_add_sum_filter_not]

lemma sigma_eq_sum_divisors (n : ℕ) (hn : n ≠ 0) :
    sigma n = .ok (∑ d in n.divisors, d) := by
  rcases eq_or_ne n 1 with rfl | h1
  · simp [sigma, Nat.divisors_one]
  · have h2 : 2 ≤ n := by omega
    simp only [sigma]
    rw [if_neg hn, if_neg h1, sigma_scan_eq_sum_divisors n h2]

/-- C5: for n >= 1 the divisor scan of `sigma` computes the full sum of the
positive divisors of n (sigma 0 is the domain error), and `is_perfect`
never fails, returning true exactly when n >= 2 and the divisor sum is 2n
(so false for n <= 1, including n = 0). -/
theorem sigma_is_perfect_spec (n : ℕ) :
    sigma 0 = .error .domainError ∧
    (n ≠ 0 → sigma n = .ok (∑ d in n.divisors, d)) ∧
    ∃ b : Bool, is_perfect n = .ok b ∧
      (b = true ↔ 2 ≤ n ∧ ∑ d in n.divisors, d = 2 * n) := by
  refine ⟨by simp [sigma], fun hn => sigma_eq_sum_divisors n hn, ?_⟩
  by_cases hle : n ≤ 1
  · refine ⟨false, by simp [is_perfect, hle], ?_⟩
    exact iff_of_false (by simp) (by rintro ⟨h2, -⟩; omega)
  · have hn : n ≠ 0 := by omega
    refine ⟨decide (∑ d in n.divisors, d = 2 * n), ?_, ?_⟩
    · simp only [is_perfect]
      rw [if_neg hle, sigma_eq_sum_divisors n hn]
      rfl
    · rw [decide_eq_true_eq]
      exact ⟨fun h => ⟨by omega, h⟩, fun h => h.2⟩

/-- Witness for C5: sigma 6 = 12 through the divisor-sum characterization. -/
theorem sigma_is_perfect_spec_witness : sigma 6 = .ok 12 := by
  have h := (sigma_is_perfect_spec 6).2.1 (by decide)
  rw [show (∑ d in Nat.divisors 6, d) = 12 from by decide] at h
  exact h

end Sophy

namespace Sophy

variable {α : Type*} [LinearOrderedField α]

/-- C8: the recurrence law gamma(x) = gamma(x+1)/x holds exactly (hence
within any test tolerance) for every x > 0 across all three branches: for
0 < x < 1 it is the literal definition, and for x >= 1 the argument x + 1
falls into the x >= 2 branch, which builds gamma(x+1) as x * gamma(x), so
division by x gives gamma(x) back; this covers the Lanczos range
1 <= x < 2 as well. -/
theorem gamma_recurrence_spec [FloorRing α] (pf : α → α → α) (ef sqf : α → α)
    (pi : α) (x : α) (hx : 0 < x) :
    gamma pf ef sqf pi x = (gamma pf ef sqf pi (x + 1)).map (fun g => g / x) := by
  have hnle : ¬(x ≤ 0) := not_le.2 hx
  by_cases h1 : x < 1
  · exact gamma_of_lt_one pf ef sqf pi hnle h1
  · have hge1 : (1 : α) ≤ x := not_lt.1 h1
    have hx1n0 : ¬(x + 1 ≤ 0) := by linarith
    have hx1n1 : ¬(x + 1 < 1) := by linarith
    have hx12 : (2 : α) ≤ x + 1 := by linarith
    rw [gamma_of_ge_two pf ef sqf pi hx1n0 hx1n1 hx12]
    rw [show x + 1 - 1 = x from by ring]
    cases hgx : gamma pf ef sqf pi x with
    | error e => simp [Except.map]
    | ok v =>
      simp only [Except.map]
      rw [mul_div_cancel_left₀ v (ne_of_gt hx)]

/-- Witness for C8: the recurrence at x = 1/2 over the rationals. -/
theorem gamma_recurrence_spec_witness :
    gamma (fun _ _ => (0 : ℚ)) id id 0 (1 / 2)
      = (gamma (fun _ _ => (0 : ℚ)) id id 0 (1 / 2 + 1)).map (fun g => g / (1 / 2)) :=
  gamma_recurrence_spec (fun _ _ => (0 : ℚ)) id id 0 (1 / 2) (by norm_num)

/-- C4 (the code, at the failing input): the termination guard of the exp
loop compares the signed term with epsilon, so at x = -1 the loop exits
after a single iteration in the state (result, term, n) = (0, -1, 2) even
though |term| = 1 is far above machine epsilon, and exp(-1) returns 0; the
exiting term is the Taylor term x^1/1! = -1, whose absolute value the
claimed termination condition |term| <= epsilon would reject. -/
theorem exp_signed_guard_bug :
    exp (-1 : ℚ) epsilon 5 = some 0 ∧
    expGo (-1 : ℚ) epsilon 5 1 1 1 = some (0, -1, 2) ∧
    ¬(|(-1 : ℚ)| ≤ epsilon) ∧
    taylorTerm (-1 : ℚ) 1 = -1 := by
  refine ⟨?_, ?_, ?_, ?_⟩ <;>
    norm_num [exp, expGo, epsilon, taylorTerm]

end Sophy

namespace Sophy

variable {α : Type*} [LinearOrderedField α]

lemma erf_at_zero (ef : α → α) : erf ef 0 = 0 := by
  rw [erf]
  simp

lemma erf_of_neg (ef : α → α) {x : α} (hx : x < 0) :
    erf ef x = -erf ef (-x) := by
  rw [erf]
  rw [if_neg (ne_of_lt hx), if_pos hx]

lemma erf_of_gt_five (ef : α → α) {x : α} (hx : 5 < x) : erf ef x = 1 := by
  have hx0 : (0 : α) < x := lt_trans (by norm_num) hx
  rw [erf]
  rw [if_neg (ne_of_gt hx0), if_neg (not_lt.2 (le_of_lt hx0)), if_pos hx]

lemma erf_of_pos_le_five (ef : α → α) {x : α} (h0 : 0 < x) (h5 : ¬(5 < x)) :
    erf ef x = 1 - (A1 * (1 / (1 + P * x)) + A2 * (1 / (1 + P * x)) * (1 / (1 + P * x))
      + A3 * (1 / (1 + P * x)) * (1 / (1 + P * x)) * (1 / (1 + P * x))
      + A4 * (1 / (1 + P * x)) ^ 4 + A5 * (1 / (1 + P * x)) ^ 5) * ef (-(x * x)) := by
  rw [erf]
  rw [if_neg (ne_of_gt h0), if_neg (not_lt.2 (le_of_lt h0)), if_neg h5]

/-- C9: erf is total by construction, returns exactly 0 at 0, reflects
negative arguments through the odd-function identity, satisfies the
round-trip erf(-x) = -erf(x) for every x, and saturates to exactly 1 for
x > 5. -/
theorem erf_symmetry_spec (ef : α → α) :
    erf ef 0 = 0 ∧
    (∀ x : α, x < 0 → erf ef x = -erf ef (-x)) ∧
    (∀ x : α, erf ef (-x) = -erf ef x) ∧
    ∀ x : α, 5 < x → erf ef x = 1 := by
  refine ⟨erf_at_zero ef, fun x hx => erf_of_neg ef hx, ?_,
    fun x hx => erf_of_gt_five ef hx⟩
  intro x
  rcases lt_trichotomy x 0 with hx | rfl | hx
  · rw [erf_of_neg ef hx, neg_neg]
  · rw [neg_zero, erf_at_zero, neg_zero]
  · have hneg : -x < 0 := neg_lt_zero.2 hx
    rw [erf_of_neg ef hneg, neg_neg]

/-- Witness for C9: over the rationals, erf saturates at x = 6. -/
theorem erf_symmetry_spec_witness : erf (fun _ => (0 : ℚ)) 6 = 1 :=
  (erf_symmetry_spec (fun _ => (0 : ℚ))).2.2.2 6 (by norm_num)

lemma erfPoly_bounds {t : α} (h0 : 0 ≤ t) (h1 : t ≤ 1) :
    0 ≤ A1 * t + A2 * t * t + A3 * t * t * t + A4 * t ^ 4 + A5 * t ^ 5 ∧
    A1 * t + A2 * t * t + A3 * t * t * t + A4 * t ^ 4 + A5 * t ^ 5 ≤ 2 := by
  have hq : (0 : α) ≤ A1 + A2 * t + A3 * t ^ 2 + A4 * t ^ 3 + A5 * t ^ 4 := by
    simp only [A1, A2, A3, A4, A5]
    nlinarith [sq_nonneg (t * t - 6845 / 10000 * t), sq_nonneg (t - 154 / 1000),
      h0, h1, mul_nonneg h0 h0, mul_nonneg (mul_nonneg h0 h0) h0,
      mul_nonneg h0 (sub_nonneg.2 h1), sq_nonneg t, sq_nonneg (1 - t)]
  have hq2 : A1 + A2 * t + A3 * t ^ 2 + A4 * t ^ 3 + A5 * t ^ 4 ≤ 2 := by
    simp only [A1, A2, A3, A4, A5]
    nlinarith [mul_nonneg (mul_nonneg (mul_nonneg h0 h0) h0) (sub_nonneg.2 h1),
      mul_nonneg (mul_nonneg h0 h0) h0,
      mul_nonneg (sub_nonneg.2 h1) (by linarith : (0 : α) ≤ 1 + t), h0, h1]
  constructor
  · nlinarith [mul_nonneg h0 hq]
  · have hle : t * (A1 + A2 * t + A3 * t ^ 2 + A4 * t ^ 3 + A5 * t ^ 4)
        ≤ A1 + A2 * t + A3 * t ^ 2 + A4 * t ^ 3 + A5 * t ^ 4 :=
      mul_le_of_le_one_left hq h1
    nlinarith [hle, hq2]

/-- C10: whenever the exponential primitive satisfies 0 <= exp y <= 1 on
nonpositive arguments (as the real exponential does at -x^2), every value
of erf lies in [-1, 1]: the Abramowitz-Stegun polynomial lies in [0, 2] on
the range of t = 1/(1 + P x), and the zero, reflection and saturation
branches preserve the bound. -/
theorem erf_range_spec (ef : α → α)
    (hef : ∀ y : α, y ≤ 0 → 0 ≤ ef y ∧ ef y ≤ 1) :
    ∀ x : α, -1 ≤ erf ef x ∧ erf ef x ≤ 1 := by
  have hbase : ∀ x : α, 0 ≤ x → -1 ≤ erf ef x ∧ erf ef x ≤ 1 := by
    intro x hx
    rcases hx.eq_or_lt with rfl | hpos
    · rw [erf_at_zero]
      norm_num
    · by_cases h5 : 5 < x
      · rw [erf_of_gt_five ef h5]
        norm_num
      · rw [erf_of_pos_le_five ef hpos h5]
        have hPpos : (0 : α) < P := by
          simp only [P]
          norm_num
        have hden : (0 : α) < 1 + P * x := by nlinarith [mul_pos hPpos hpos]
        have ht0 : 0 ≤ 1 / (1 + P * x) := le_of_lt (one_div_pos.2 hden)
        have ht1 : 1 / (1 + P * x) ≤ 1 := by
          rw [div_le_one hden]
          nlinarith [mul_pos hPpos hpos]
        obtain ⟨hp0, hp2⟩ := erfPoly_bounds ht0 ht1
        obtain ⟨he0, he1⟩ := hef (-(x * x)) (by nlinarith [mul_self_nonneg x])
        constructor
        · have hmul : (A1 * (1 / (1 + P * x)) + A2 * (1 / (1 + P * x)) * (1 / (1 + P * x))
              + A3 * (1 / (1 + P * x)) * (1 / (1 + P * x)) * (1 / (1 + P * x))
              + A4 * (1 / (1 + P * x)) ^ 4 + A5 * (1 / (1 + P * x)) ^ 5) * ef (-(x * x))
              ≤ 2 * 1 := mul_le_mul hp2 he1 he0 (by norm_num)
          linarith
        · have hmul : 0 ≤ (A1 * (1 / (1 + P * x)) + A2 * (1 / (1 + P * x)) * (1 / (1 + P * x))
              + A3 * (1 / (1 + P * x)) * (1 / (1 + P * x)) * (1 / (1 + P * x))
              + A4 * (1 / (1 + P * x)) ^ 4 + A5 * (1 / (1 + P * x)) ^ 5) * ef (-(x * x)) :=
            mul_nonneg hp0 he0
          linarith
  intro x
  rcases lt_or_le x 0 with hx | hx
  · rw [erf_of_neg ef hx]
    have h := hbase (-x) (by linarith)
    exact ⟨by linarith [h.2], by linarith [h.1]⟩
  · exact hbase x hx

/-- Witness for C10: with the constant-zero exponential primitive, which
maps nonpositive arguments into [0, 1], the bound holds at x = 2. -/
theorem erf_range_spec_witness :
    -1 ≤ erf (fun _ => (0 : ℚ)) 2 ∧ erf (fun _ => (0 : ℚ)) 2 ≤ 1 :=
  erf_range_spec (fun _ => (0 : ℚ))
    (fun _ _ => ⟨le_refl 0, by norm_num⟩) 2

end Sophy
